import Mathlib

/-!
Shallow embedding of the photo-grid-cli core pipeline:
`src/fileSearch.ts` (image locator), `src/prompts.ts` (date parsing,
sorting, day difference, CLI orchestration) and `src/montageBuilder.ts`
(external `montage` invocation).

Strings are modelled as `List Char`.  JavaScript `Date` values are
modelled by `JSDate`: either a valid date carrying its timestamp in
milliseconds since the Unix epoch, or the JS "Invalid Date".
`new Date(y, m, d)` is modelled in a fixed (UTC-like) timezone;
daylight-saving shifts are not modelled (only date differences and
orderings are used by the program, which a fixed offset preserves).
-/

deriving instance DecidableEq for Except

namespace PhotoGrid

/-- ASCII lower-casing of one character, as JS `toLowerCase` acts on
the ASCII range (non-ASCII case mappings are not modelled; the
extension and digit characters of interest are ASCII). -/
def lowerChar (c : Char) : Char :=
  if 65 ≤ c.toNat ∧ c.toNat ≤ 90 then Char.ofNat (c.toNat + 32) else c

/-- Lower-case a whole string (list of characters). -/
def lowerStr (s : List Char) : List Char := s.map lowerChar

/-- Decimal-digit test, the character class `[0-9]`. -/
def isDigitCh (c : Char) : Bool := decide (48 ≤ c.toNat ∧ c.toNat ≤ 57)

/-- Case-insensitive suffix test: `s` ends with `suff` up to ASCII case. -/
def endsWithCI (s suff : List Char) : Bool := decide (lowerStr suff <:+ lowerStr s)

/-- The `^[0-9]{8}` part of the filename regex: at least 8 characters
and the first 8 are decimal digits. -/
def leading8Digits (s : List Char) : Bool :=
  decide (8 ≤ s.length) && (s.take 8).all isDigitCh

/-- JS regex `.` does not match line terminators; `\n` and `\r` are the
ones representable in filenames we model. -/
def notLineTerm (c : Char) : Bool := decide (c ≠ '\n' ∧ c ≠ '\r')

/-- One alternative of the tail `.*\.(ext)$` of the filename regex, for a
fixed suffix `ext` that starts with the literal dot (e.g. `".jpg"`):
the string ends with `ext` case-insensitively, the final dot lies at or
after index 8, and the `.*` region (between index 8 and that dot)
contains no line terminator. -/
def regexSuffixOK (ext s : List Char) : Bool :=
  endsWithCI s ext && decide (8 + ext.length ≤ s.length) &&
    ((s.drop 8).take (s.length - 8 - ext.length)).all notLineTerm

/-- The hardcoded filter regex of `searchForImages`
(src/fileSearch.ts line 27): `/^[0-9]{8}.*\.(jpg|jpeg|png)$/i`.
Since each alternative's suffix (".jpg", ".jpeg", ".png") determines
the position of the final literal dot, the regex is equivalent to this
suffix case split. -/
def hardRegex (s : List Char) : Bool :=
  leading8Digits s &&
    (regexSuffixOK (".jpg").data s || regexSuffixOK (".jpeg").data s ||
      regexSuffixOK (".png").data s)

/-- A file on disk below the search root: directory part and basename
of its absolute path (`path.basename` is the `base` projection). -/
structure FileEnt where
  dir : List Char
  base : List Char
deriving DecidableEq, Repr

/-- The absolute path of a file entry. -/
def absPath (f : FileEnt) : List Char := f.dir ++ '/' :: f.base

/-- Filesystem state seen by one `searchForImages` run: whether the
root path exists and is a directory, and the regular files below it in
the (deterministic for a fixed state) enumeration order used by the
glob library. -/
structure FileSystem where
  rootExists : Bool
  rootIsDir : Bool
  entries : List FileEnt

/-- Whether the glob pattern `**/*<ext>` accepts a file
(src/fileSearch.ts line 15, fast-glob with `caseSensitiveMatch: false`,
`onlyFiles: true`): the basename ends with `ext` case-insensitively and
is not a leading-dot name (fast-glob's default `dot: false`; dot
directories on the path are not modelled, which only ever removes
files from the enumeration). -/
def fgAccept (ext : List Char) (f : FileEnt) : Bool :=
  !(decide (f.base.take 1 = ['.'])) && endsWithCI f.base ext

/-- The files below the root that match at least one of the glob
patterns, in enumeration order. -/
def globList (fs : FileSystem) (exts : List (List Char)) : List FileEnt :=
  fs.entries.filter (fun f => exts.any (fun e => fgAccept e f))

/-- Modelled behaviour of the third-party `fast-glob` call
(src/fileSearch.ts line 24) on the given filesystem state: with its
default options fast-glob suppresses `ENOENT` (a missing root yields an
empty result), while reading a non-directory root raises `ENOTDIR`,
which rejects the promise; otherwise it returns the files matched by
any of the patterns `**/*<ext>`, once each (default `unique: true`),
in enumeration order. -/
def fgGlob (fs : FileSystem) (exts : List (List Char)) :
    Except (List Char) (List FileEnt) :=
  if fs.rootExists = false then Except.ok []
  else if fs.rootIsDir = false then Except.error ("ENOTDIR: not a directory").data
  else Except.ok (globList fs exts)

/-- Step 2 of `searchForImages` (src/fileSearch.ts lines 27-31): keep
only files whose basename matches the hardcoded date regex. -/
def matchedOf (l : List FileEnt) : List FileEnt :=
  l.filter (fun f => hardRegex f.base)

/-- The regex-filtered file list of one search run (the `matchedFiles`
array of src/fileSearch.ts line 28, for a root that exists and is a
directory). -/
def matchedList (fs : FileSystem) (exts : List (List Char)) : List FileEnt :=
  matchedOf (globList fs exts)

/-- The deduplication key (src/fileSearch.ts line 39):
`path.basename(filePath).toLowerCase()`. -/
def lowKey (f : FileEnt) : List Char := lowerStr f.base

/-- First-occurrence deduplication (src/fileSearch.ts lines 35-48 and
58): walk the list with the set of basenames seen so far; a file whose
key is new is kept (the JS `Map` preserves insertion order, so
`[...seenBasenames.values()]` lists first occurrences in encounter
order), a file whose key was seen is dropped. -/
def firstOccur (key : FileEnt → List Char) :
    List FileEnt → List (List Char) → List FileEnt
  | [], _ => []
  | f :: fs, seen =>
    if key f ∈ seen then firstOccur key fs seen
    else f :: firstOccur key fs (key f :: seen)

/-- The later occurrences collected into `duplicates`
(src/fileSearch.ts lines 36-47), in encounter order. -/
def dupOccur (key : FileEnt → List Char) :
    List FileEnt → List (List Char) → List FileEnt
  | [], _ => []
  | f :: fs, seen =>
    if key f ∈ seen then f :: dupOccur key fs seen
    else dupOccur key fs (key f :: seen)

/-- `searchForImages(directory, extensions)` (src/fileSearch.ts):
glob for each extension pattern, filter by the hardcoded date regex,
return the first occurrence of each case-insensitive basename.  The
`Except` error represents a rejection of the returned promise (the
function body itself never throws). -/
def searchForImages (fs : FileSystem) (exts : List (List Char)) :
    Except (List Char) (List FileEnt) :=
  match fgGlob fs exts with
  | Except.error e => Except.error e
  | Except.ok allFoundFiles =>
      Except.ok (firstOccur lowKey (matchedOf allFoundFiles) [])

/-- The duplicate paths reported (printed) and skipped by
`searchForImages` for the same inputs. -/
def duplicatesOf (fs : FileSystem) (exts : List (List Char)) : List FileEnt :=
  match fgGlob fs exts with
  | Except.error _ => []
  | Except.ok allFoundFiles => dupOccur lowKey (matchedOf allFoundFiles) []

/-- The filename pattern as the specification states it, parameterised
by the allowed extensions: `^[0-9]{8}.*\.(ext1|ext2|...)$`
case-insensitively — exactly 8 leading decimal digits, then any
characters, then a dot and an allowed extension.  This definition
follows the specification's words (for refinement comparison with
`hardRegex`); an extension is normalised to carry its leading dot the
way the interaction layer supplies it (".jpg"). -/
def dotNorm (e : List Char) : List Char :=
  if e.take 1 = ['.'] then e else '.' :: e

/-- See `dotNorm`: the spec-side acceptance pattern for a basename,
for a given allowed-extension list. -/
def claimPattern (exts : List (List Char)) (s : List Char) : Bool :=
  leading8Digits s && exts.any (fun e =>
    endsWithCI s (dotNorm e) && decide (8 + (dotNorm e).length ≤ s.length))

/-- A JavaScript `Date` value: valid with a millisecond timestamp, or
the "Invalid Date". -/
inductive JSDate where
  | valid (ms : Int) : JSDate
  | invalid : JSDate
deriving DecidableEq, Repr

/-- `Date.prototype.getTime`.  For "Invalid Date" the real result is
NaN; orderings involving it are implementation-defined in JS, and the
model returns an arbitrary value (0) there — theorems about sorting are
stated for valid dates only. -/
def jsGetTime : JSDate → Int
  | JSDate.valid t => t
  | JSDate.invalid => 0

/-- Days from 1970-01-01 of the civil date `(y, m, d)` with `m` in
1..12 (the standard days-from-civil computation; `Int.ediv` is floor
division for the positive divisors used here). -/
def daysFromCivil (y m d : Int) : Int :=
  let y2 := if m ≤ 2 then y - 1 else y
  let era := y2.ediv 400
  let yoe := y2 - era * 400
  let mp := (m + 9).emod 12
  let doy := (153 * mp + 2).ediv 5 + (d - 1)
  let doe := yoe * 365 + yoe.ediv 4 - yoe.ediv 100 + doy
  era * 146097 + doe - 719468

/-- Days from the epoch of the JS construction `new Date(y, m, d)` with
a zero-based month `m`: a year 0..99 is interpreted as 1900+y, the
month rolls over into adjacent years (floor division), and the day is
counted from the 1st of the resulting month, rolling over freely. -/
def jsDateDays (y m d : Int) : Int :=
  let yA := if 0 ≤ y ∧ y ≤ 99 then y + 1900 else y
  let yN := yA + m.ediv 12
  let mN := m.emod 12
  daysFromCivil yN (mN + 1) 1 + (d - 1)

/-- Millisecond timestamp of `new Date(y, m, d)` (fixed-offset model,
local midnight). -/
def jsDateMs (y m d : Int) : Int := 86400000 * jsDateDays y m d

/-- JS `parseInt` restricted to the inputs that arise here: the maximal
leading run of decimal digits, `NaN` (`none`) when there is none.
(Leading whitespace/sign and the hex prefix of full `parseInt` are not
modelled; the slices parsed by this program start with a digit or fail
outright either way.) -/
def digitsToNat (l : List Char) : Nat :=
  l.foldl (fun a c => a * 10 + (c.toNat - 48)) 0

/-- See `digitsToNat`. -/
def jsParseInt (s : List Char) : Option Nat :=
  let t := s.takeWhile isDigitCh
  if t.isEmpty then none else some (digitsToNat t)

/-- The body of the `try` block of `parseDates` (src/prompts.ts lines
158-164): slice the first 8 characters, parse year/month/day fields,
build `new Date(year, month - 1, day)`.  A `NaN` field yields the JS
"Invalid Date" (it does not throw). -/
def jsParseBody (base : List Char) : JSDate :=
  let dateStr := base.take 8
  match jsParseInt (dateStr.take 4), jsParseInt ((dateStr.drop 4).take 2),
      jsParseInt ((dateStr.drop 6).take 2) with
  | some y, some m, some d => JSDate.valid (jsDateMs (y : Int) ((m : Int) - 1) (d : Int))
  | _, _, _ => JSDate.invalid

/-- The `try` block as a fallible computation: `none` models a raised
exception (caught at src/prompts.ts line 165).  The concrete body
`jsParseBody` never throws — `parseInt` returns `NaN` instead of
throwing and the `Date` constructor yields "Invalid Date" instead of
throwing — so the concrete instance always returns `some`. -/
def tryParseImpl (base : List Char) : Option JSDate := some (jsParseBody base)

/-- The `dateVal` assigned to a file (src/prompts.ts lines 159-168):
the try-block result, or the epoch `new Date(0)` when the try block
raised. -/
def effDate (tp : List Char → Option JSDate) (f : FileEnt) : JSDate :=
  (tp f.base).getD (JSDate.valid 0)

/-- The numeric sort key `a.dateVal.getTime()` of the comparator at
src/prompts.ts line 173. -/
def sortKey (tp : List Char → Option JSDate) (f : FileEnt) : Int :=
  jsGetTime (effDate tp f)

/-- Stable insertion of one element into a list sorted by `key`:
the element goes in front of the first entry with a key `≥` its own.
ES2019 requires `Array.prototype.sort` to be stable, and for a
consistent comparator every stable sort produces the same output, so
stable insertion sort models the JS sort faithfully. -/
def insertSorted (key : FileEnt → Int) (x : FileEnt) :
    List FileEnt → List FileEnt
  | [] => [x]
  | y :: ys => if key x ≤ key y then x :: y :: ys else y :: insertSorted key x ys

/-- Stable sort by `key`; see `insertSorted`. -/
def sortByKey (key : FileEnt → Int) : List FileEnt → List FileEnt
  | [] => []
  | x :: xs => insertSorted key x (sortByKey key xs)

/-- Result record of `parseDates` (src/prompts.ts line 179). -/
structure ParsedData where
  sortedFiles : List FileEnt
  earliestDate : JSDate
  latestDate : JSDate
deriving DecidableEq, Repr

/-- `parseDates(filePaths)` (src/prompts.ts lines 153-180),
parameterised by the try-block computation `tp` (see `tryParseImpl`):
assign each file its `dateVal` (`effDate`), sort stably by
`dateVal.getTime()`, read the earliest and latest dates off the ends of
the sorted array.  On an empty input the source dereferences
`items[0].dateVal` of `undefined` and throws a `TypeError`, modelled by
`none` (the caller guards against the empty case). -/
def parseDatesWith (tp : List Char → Option JSDate) (filePaths : List FileEnt) :
    Option ParsedData :=
  let sorted := sortByKey (sortKey tp) filePaths
  match sorted.head?, sorted.getLast? with
  | some a, some b => some ⟨sorted, effDate tp a, effDate tp b⟩
  | _, _ => none

/-- `parseDates` with the concrete (never-throwing) try block. -/
def parseDates (filePaths : List FileEnt) : Option ParsedData :=
  parseDatesWith tryParseImpl filePaths

/-- The parsed date key of a file under the concrete parser (what the
spec calls `parsedDate`, as a millisecond timestamp). -/
def parsedMs (f : FileEnt) : Int := jsGetTime (jsParseBody f.base)

/-- `dayDifference(d1, d2)` (src/prompts.ts lines 185-188):
`Math.ceil((d2.getTime() - d1.getTime()) / 86400000)`.  Over integers,
`Math.ceil (a / b)` for `b > 0` is `-((-a).ediv b)` (the float division
is exact for the magnitudes a date can take, so no rounding divergence
arises). -/
def dayDifference (d1 d2 : JSDate) : Int :=
  -(Int.ediv (-(jsGetTime d2 - jsGetTime d1)) 86400000)

/-- One external-process invocation: executable name and argument list. -/
structure Invocation where
  command : List Char
  args : List (List Char)
deriving DecidableEq, Repr

/-- The options record taken by `createMontage`
(src/montageBuilder.ts lines 4-9); `files` are absolute paths. -/
structure MontageOptions where
  files : List (List Char)
  imagesPerRow : Int
  resolution : List Char
  outputFile : List Char
deriving DecidableEq, Repr

/-- `createMontage(options)` (src/montageBuilder.ts lines 16-41): build
the argument list and call `runCommand('montage', args)` exactly once —
the function constructs a single invocation and performs no retries. -/
def createMontage (options : MontageOptions) : Invocation :=
  let tileArg := (toString options.imagesPerRow).data ++ ['x']
  let geometryArg := options.resolution ++ ("+0+0").data
  { command := ("montage").data
    args := options.files ++
      [("-tile").data, tileArg, ("-geometry").data, geometryArg,
        ("-background").data, ("white").data, ("+frame").data,
        ("+shadow").data, ("+label").data, options.outputFile] }

/-- Outcome of spawning the external process: the spawn failed with an
error (e.g. the tool is not installed), or the process exited with a
status code.  (Termination by signal, where Node reports a null code,
is not modelled.) -/
inductive ProcOutcome where
  | spawnFail (msg : List Char) : ProcOutcome
  | exited (code : Int) : ProcOutcome
deriving DecidableEq, Repr

/-- `runCommand(command, args)` (src/montageBuilder.ts lines 47-63)
applied to the outcome of the spawned process: a spawn error rejects
with that error; exit code 0 resolves; any other exit code rejects with
`` `${command} exited with code ${code}` ``. -/
def runCommand (command : List Char) (args : List (List Char))
    (oc : ProcOutcome) : Except (List Char) Unit :=
  match oc with
  | ProcOutcome.spawnFail e => Except.error e
  | ProcOutcome.exited code =>
      if code = 0 then Except.ok ()
      else Except.error
        (command ++ (" exited with code ").data ++ (toString code).data)

/-- The interactive inputs the CLI collects after the search step
(images per row, cell resolution, resolved output file path). -/
structure CliInputs where
  imagesPerRow : Int
  resolution : List Char
  outputFile : List Char
deriving DecidableEq, Repr

/-- Observable outcome of the pipeline tail: early `NoImagesFound`
notice (a normal return carrying the printed message), a montage
invocation, or a crash (unreachable `TypeError` path of `parseDates`
on an empty list). -/
inductive CliOutcome where
  | noImages (notice : List Char) : CliOutcome
  | montageRun (inv : Invocation) : CliOutcome
  | crashed : CliOutcome
deriving DecidableEq, Repr

/-- The pipeline tail of `runCli` (src/prompts.ts lines 65-142) as a
function of the search result and the remaining prompt answers: with
zero found images it prints the notice and returns (no error, no date
parsing, no composition); otherwise it parses/sorts dates and builds
the single montage invocation over the sorted absolute paths. -/
def runCliAfterSearch (foundImages : List FileEnt) (inp : CliInputs) :
    CliOutcome :=
  if foundImages.length = 0 then
    CliOutcome.noImages ("No images found matching the given extensions.").data
  else
    match parseDates foundImages with
    | none => CliOutcome.crashed
    | some pd => CliOutcome.montageRun (createMontage
        { files := pd.sortedFiles.map absPath
          imagesPerRow := inp.imagesPerRow
          resolution := inp.resolution
          outputFile := inp.outputFile })

/-! Helper lemmas about case folding, the regex predicates, and
first-occurrence deduplication. -/

theorem lowerChar_of_digit {c : Char} (h : isDigitCh c = true) : lowerChar c = c := by
  simp only [isDigitCh, decide_eq_true_eq] at h
  unfold lowerChar
  rw [if_neg (by omega)]

theorem length_lowerStr (s : List Char) : (lowerStr s).length = s.length := by
  simp [lowerStr]

/-- A suffix that starts with a literal dot cannot overlap the 8-digit
prefix: the basename must be at least `8 + |suffix|` long. -/
theorem dot_suffix_length {s e : List Char}
    (hd : leading8Digits s = true) (he : endsWithCI s ('.' :: e) = true) :
    8 + ('.' :: e).length ≤ s.length := by
  simp only [endsWithCI, decide_eq_true_eq] at he
  obtain ⟨t, ht⟩ := he
  simp only [leading8Digits, Bool.and_eq_true, decide_eq_true_eq] at hd
  obtain ⟨hlen, hdig⟩ := hd
  have hmapnorm : lowerStr ('.' :: e) = '.' :: lowerStr e := by
    have h0 : lowerChar '.' = '.' := by decide
    simp [lowerStr, h0]
  rw [hmapnorm] at ht
  by_contra hcon
  have hslen : s.length = t.length + e.length + 1 := by
    have h2 := congrArg List.length ht
    simp only [List.length_append, lowerStr, List.length_map, List.length_cons] at h2
    omega
  have htlt : t.length < 8 := by
    simp only [List.length_cons] at hcon
    omega
  have hdotmem : ('.' : Char) ∈ (lowerStr s).take 8 := by
    rw [← ht, List.take_append_eq_append_take,
      List.take_of_length_le (le_of_lt htlt)]
    apply List.mem_append_right
    have h8 : 8 - t.length = (8 - t.length - 1) + 1 := by omega
    rw [h8, List.take_succ_cons]
    exact List.mem_cons_self _ _
  have hfinal : isDigitCh '.' = true := by
    have hmap2 : (lowerStr s).take 8 = lowerStr (s.take 8) := by
      simp [lowerStr, List.map_take]
    rw [hmap2, lowerStr] at hdotmem
    obtain ⟨c, hc, hcl⟩ := List.mem_map.mp hdotmem
    rw [List.all_eq_true] at hdig
    have hcd := hdig c hc
    rw [← hcl, lowerChar_of_digit hcd]
    exact hcd
  simp [isDigitCh] at hfinal

theorem firstOccur_subset {key : FileEnt → List Char} :
    ∀ (l : List FileEnt) (seen : List (List Char)) (f : FileEnt),
      f ∈ firstOccur key l seen → f ∈ l := by
  intro l
  induction l with
  | nil => intro seen f h; simp [firstOccur] at h
  | cons x xs ih =>
    intro seen f h
    simp only [firstOccur] at h
    by_cases hx : key x ∈ seen
    · rw [if_pos hx] at h
      exact List.mem_cons_of_mem _ (ih _ _ h)
    · rw [if_neg hx] at h
      rcases List.mem_cons.mp h with h1 | h1
      · exact h1 ▸ List.mem_cons_self _ _
      · exact List.mem_cons_of_mem _ (ih _ _ h1)

theorem firstOccur_keys_fresh {key : FileEnt → List Char} :
    ∀ (l : List FileEnt) (seen : List (List Char)),
      (∀ f ∈ firstOccur key l seen, key f ∉ seen) ∧
        ((firstOccur key l seen).map key).Nodup := by
  intro l
  induction l with
  | nil => intro seen; simp [firstOccur]
  | cons x xs ih =>
    intro seen
    simp only [firstOccur]
    by_cases hx : key x ∈ seen
    · rw [if_pos hx]; exact ih seen
    · rw [if_neg hx]
      obtain ⟨hfresh, hnd⟩ := ih (key x :: seen)
      refine ⟨?_, ?_⟩
      · intro f hf
        rcases List.mem_cons.mp hf with hf1 | hf1
        · exact hf1 ▸ hx
        · intro hmem
          exact hfresh f hf1 (List.mem_cons_of_mem _ hmem)
      · rw [List.map_cons, List.nodup_cons]
        refine ⟨?_, hnd⟩
        intro hmem
        rw [List.mem_map] at hmem
        obtain ⟨g, hg, hkg⟩ := hmem
        exact hfresh g hg (hkg ▸ List.mem_cons_self _ _)

theorem firstOccur_filter {key : FileEnt → List Char} (k : List Char) :
    ∀ (l : List FileEnt) (seen : List (List Char)),
      (k ∈ seen →
        (firstOccur key l seen).filter (fun f => decide (key f = k)) = []) ∧
      (k ∉ seen →
        (firstOccur key l seen).filter (fun f => decide (key f = k)) =
          (l.filter (fun f => decide (key f = k))).take 1) := by
  intro l
  induction l with
  | nil => intro seen; simp [firstOccur]
  | cons x xs ih =>
    intro seen
    simp only [firstOccur]
    by_cases hx : key x ∈ seen
    · rw [if_pos hx]
      refine ⟨fun hk => (ih seen).1 hk, fun hk => ?_⟩
      have hne : ¬(key x = k) := fun h => hk (h ▸ hx)
      rw [List.filter_cons_of_neg (by simpa using hne)]
      exact (ih seen).2 hk
    · rw [if_neg hx]
      constructor
      · intro hk
        have hne : ¬(key x = k) := fun h => hx (h ▸ hk)
        rw [List.filter_cons_of_neg (by simpa using hne)]
        exact (ih (key x :: seen)).1 (List.mem_cons_of_mem _ hk)
      · intro hk
        by_cases hxk : key x = k
        · rw [List.filter_cons_of_pos (by simpa using hxk)]
          rw [List.filter_cons_of_pos (by simpa using hxk)]
          rw [(ih (key x :: seen)).1 (hxk ▸ List.mem_cons_self _ _)]
          simp
        · rw [List.filter_cons_of_neg (by simpa using hxk)]
          rw [List.filter_cons_of_neg (by simpa using hxk)]
          exact (ih (key x :: seen)).2 (by
            intro hmem
            rcases List.mem_cons.mp hmem with hm | hm
            · exact hxk hm.symm
            · exact hk hm)

theorem dupOccur_filter {key : FileEnt → List Char} (k : List Char) :
    ∀ (l : List FileEnt) (seen : List (List Char)),
      (k ∈ seen →
        (dupOccur key l seen).filter (fun f => decide (key f = k)) =
          l.filter (fun f => decide (key f = k))) ∧
      (k ∉ seen →
        (dupOccur key l seen).filter (fun f => decide (key f = k)) =
          (l.filter (fun f => decide (key f = k))).drop 1) := by
  intro l
  induction l with
  | nil => intro seen; simp [dupOccur]
  | cons x xs ih =>
    intro seen
    simp only [dupOccur]
    by_cases hx : key x ∈ seen
    · rw [if_pos hx]
      constructor
      · intro hk
        by_cases hxk : key x = k
        · rw [List.filter_cons_of_pos (by simpa using hxk)]
          rw [List.filter_cons_of_pos (by simpa using hxk)]
          rw [(ih seen).1 hk]
        · rw [List.filter_cons_of_neg (by simpa using hxk)]
          rw [List.filter_cons_of_neg (by simpa using hxk)]
          exact (ih seen).1 hk
      · intro hk
        have hne : ¬(key x = k) := fun h => hk (h ▸ hx)
        rw [List.filter_cons_of_neg (by simpa using hne)]
        rw [List.filter_cons_of_neg (by simpa using hne)]
        exact (ih seen).2 hk
    · rw [if_neg hx]
      constructor
      · intro hk
        have hne : ¬(key x = k) := fun h => hx (h ▸ hk)
        rw [List.filter_cons_of_neg (by simpa using hne)]
        exact (ih (key x :: seen)).1 (List.mem_cons_of_mem _ hk)
      · intro hk
        by_cases hxk : key x = k
        · rw [List.filter_cons_of_pos (by simpa using hxk)]
          rw [(ih (key x :: seen)).1 (hxk ▸ List.mem_cons_self _ _)]
          simp
        · rw [List.filter_cons_of_neg (by simpa using hxk)]
          exact (ih (key x :: seen)).2 (by
            intro hmem
            rcases List.mem_cons.mp hmem with hm | hm
            · exact hxk hm.symm
            · exact hk hm)

/-! Helper lemmas about the stable insertion sort. -/

theorem insertSorted_perm (key : FileEnt → Int) (x : FileEnt) :
    ∀ l : List FileEnt, (insertSorted key x l).Perm (x :: l) := by
  intro l
  induction l with
  | nil => simp [insertSorted]
  | cons y ys ih =>
    simp only [insertSorted]
    by_cases hxy : key x ≤ key y
    · rw [if_pos hxy]
    · rw [if_neg hxy]
      exact (ih.cons y).trans (List.Perm.swap x y ys)

theorem sortByKey_perm (key : FileEnt → Int) :
    ∀ l : List FileEnt, (sortByKey key l).Perm l := by
  intro l
  induction l with
  | nil => simp [sortByKey]
  | cons x xs ih =>
    simp only [sortByKey]
    exact (insertSorted_perm key x _).trans (ih.cons x)

theorem pairwise_insertSorted (key : FileEnt → Int) (x : FileEnt) :
    ∀ l : List FileEnt, l.Pairwise (fun a b => key a ≤ key b) →
      (insertSorted key x l).Pairwise (fun a b => key a ≤ key b) := by
  intro l
  induction l with
  | nil => intro _; simp [insertSorted]
  | cons y ys ih =>
    intro hp
    rw [List.pairwise_cons] at hp
    obtain ⟨hy, hys⟩ := hp
    simp only [insertSorted]
    by_cases hxy : key x ≤ key y
    · rw [if_pos hxy]
      rw [List.pairwise_cons]
      refine ⟨?_, List.pairwise_cons.mpr ⟨hy, hys⟩⟩
      intro z hz
      rcases List.mem_cons.mp hz with hz1 | hz1
      · exact hz1 ▸ hxy
      · exact le_trans hxy (hy z hz1)
    · rw [if_neg hxy]
      rw [List.pairwise_cons]
      refine ⟨?_, ih hys⟩
      intro z hz
      have hz2 := (insertSorted_perm key x ys).mem_iff.mp hz
      rcases List.mem_cons.mp hz2 with hz3 | hz3
      · exact hz3 ▸ le_of_not_le hxy
      · exact hy z hz3

theorem sortByKey_pairwise (key : FileEnt → Int) :
    ∀ l : List FileEnt,
      (sortByKey key l).Pairwise (fun a b => key a ≤ key b) := by
  intro l
  induction l with
  | nil => simp [sortByKey]
  | cons x xs ih =>
    simp only [sortByKey]
    exact pairwise_insertSorted key x _ ih

theorem insertSorted_filter_pos (key : FileEnt → Int) (x : FileEnt) (k : Int)
    (hxk : key x = k) :
    ∀ l : List FileEnt,
      (insertSorted key x l).filter (fun f => decide (key f = k)) =
        x :: l.filter (fun f => decide (key f = k)) := by
  intro l
  induction l with
  | nil => simp [insertSorted, hxk]
  | cons y ys ih =>
    simp only [insertSorted]
    by_cases hxy : key x ≤ key y
    · rw [if_pos hxy, List.filter_cons_of_pos (by simpa using hxk)]
    · rw [if_neg hxy]
      have hyne : ¬(key y = k) := by
        intro h2
        exact hxy (le_of_eq (hxk ▸ h2.symm ▸ rfl))
      rw [List.filter_cons_of_neg (by simpa using hyne)]
      rw [List.filter_cons_of_neg (by simpa using hyne)]
      exact ih

theorem insertSorted_filter_neg (key : FileEnt → Int) (x : FileEnt) (k : Int)
    (hxk : ¬(key x = k)) :
    ∀ l : List FileEnt,
      (insertSorted key x l).filter (fun f => decide (key f = k)) =
        l.filter (fun f => decide (key f = k)) := by
  intro l
  induction l with
  | nil => simp [insertSorted, hxk]
  | cons y ys ih =>
    simp only [insertSorted]
    by_cases hxy : key x ≤ key y
    · rw [if_pos hxy, List.filter_cons_of_neg (by simpa using hxk)]
    · rw [if_neg hxy]
      by_cases hyk : key y = k
      · rw [List.filter_cons_of_pos (by simpa using hyk)]
        rw [List.filter_cons_of_pos (by simpa using hyk)]
        rw [ih]
      · rw [List.filter_cons_of_neg (by simpa using hyk)]
        rw [List.filter_cons_of_neg (by simpa using hyk)]
        exact ih

theorem sortByKey_filter (key : FileEnt → Int) (k : Int) :
    ∀ l : List FileEnt,
      (sortByKey key l).filter (fun f => decide (key f = k)) =
        l.filter (fun f => decide (key f = k)) := by
  intro l
  induction l with
  | nil => simp [sortByKey]
  | cons x xs ih =>
    simp only [sortByKey]
    by_cases hxk : key x = k
    · rw [insertSorted_filter_pos key x k hxk, ih,
        List.filter_cons_of_pos (by simpa using hxk)]
    · rw [insertSorted_filter_neg key x k hxk, ih,
        List.filter_cons_of_neg (by simpa using hxk)]

/-! Helper lemmas unfolding the search and parse pipelines. -/

theorem searchForImages_ok {fs : FileSystem} (exts : List (List Char))
    (hr : fs.rootExists = true) (hd : fs.rootIsDir = true) :
    searchForImages fs exts =
      Except.ok (firstOccur lowKey (matchedList fs exts) []) := by
  simp [searchForImages, fgGlob, hr, hd, matchedList]

theorem duplicatesOf_eq {fs : FileSystem} (exts : List (List Char))
    (hr : fs.rootExists = true) (hd : fs.rootIsDir = true) :
    duplicatesOf fs exts = dupOccur lowKey (matchedList fs exts) [] := by
  simp [duplicatesOf, fgGlob, hr, hd, matchedList]

theorem sortByKey_ne_nil (key : FileEnt → Int) {l : List FileEnt}
    (h : l ≠ []) : sortByKey key l ≠ [] := by
  intro hcon
  apply h
  have := (sortByKey_perm key l).length_eq
  rw [hcon] at this
  exact List.length_eq_zero.mp this.symm

theorem parseDatesWith_sortedFiles {tp : List Char → Option JSDate}
    {files : List FileEnt} {pd : ParsedData}
    (h : parseDatesWith tp files = some pd) :
    pd.sortedFiles = sortByKey (sortKey tp) files := by
  simp only [parseDatesWith] at h
  rcases hh : (sortByKey (sortKey tp) files).head? with _ | a <;>
    rcases hl : (sortByKey (sortKey tp) files).getLast? with _ | b <;>
      rw [hh, hl] at h <;> simp at h
  rw [← h]

theorem parseDatesWith_isSome (tp : List Char → Option JSDate)
    {files : List FileEnt} (h : files ≠ []) :
    (parseDatesWith tp files).isSome = true := by
  have hne := sortByKey_ne_nil (sortKey tp) h
  simp only [parseDatesWith]
  rcases hh : (sortByKey (sortKey tp) files).head? with _ | a
  · exact absurd (List.head?_eq_none_iff.mp hh) hne
  · rcases hl : (sortByKey (sortKey tp) files).getLast? with _ | b
    · exact absurd (List.getLast?_eq_none_iff.mp hl) hne
    · rfl

/-! Helper lemmas for the day-difference ceiling and for field parsing. -/

theorem neg_ediv_eq_ceil (a : Int) :
    -(Int.ediv (-a) 86400000) = ⌈(a : ℚ) / 86400000⌉ := by
  have hD : (0 : ℚ) < 86400000 := by norm_num
  have h1 : 86400000 * Int.ediv (-a) 86400000 + Int.emod (-a) 86400000 = -a :=
    Int.ediv_add_emod _ _
  have h2 : 0 ≤ Int.emod (-a) 86400000 := Int.emod_nonneg _ (by norm_num)
  have h3 : Int.emod (-a) 86400000 < 86400000 := Int.emod_lt_of_pos _ (by norm_num)
  rw [eq_comm, Int.ceil_eq_iff]
  constructor
  · have hstep : (-(Int.ediv (-a) 86400000) - 1) * 86400000 < a := by linarith
    have hcast : ((-(Int.ediv (-a) 86400000) - 1 : Int) : ℚ) * 86400000 < (a : ℚ) := by
      exact_mod_cast hstep
    rw [lt_div_iff hD]
    push_cast
    push_cast at hcast
    linarith
  · have hstep : a ≤ -(Int.ediv (-a) 86400000) * 86400000 := by linarith
    have hcast : (a : ℚ) ≤ ((-(Int.ediv (-a) 86400000) : Int) : ℚ) * 86400000 := by
      exact_mod_cast hstep
    rw [div_le_iff hD]
    push_cast
    push_cast at hcast
    linarith

theorem takeWhile_of_all {p : Char → Bool} :
    ∀ {l : List Char}, l.all p = true → l.takeWhile p = l := by
  intro l h
  apply List.takeWhile_eq_self_iff.mpr
  intro x hx
  exact (List.all_eq_true.mp h) x hx

theorem jsParseInt_of_digits {s : List Char} (hne : s ≠ [])
    (h : s.all isDigitCh = true) : jsParseInt s = some (digitsToNat s) := by
  simp only [jsParseInt, takeWhile_of_all h]
  rw [if_neg (by simpa [List.isEmpty_iff] using hne)]

theorem jsParseBody_of_digits {base : List Char} (h : leading8Digits base = true) :
    jsParseBody base =
      JSDate.valid (jsDateMs (digitsToNat ((base.take 8).take 4))
        ((digitsToNat (((base.take 8).drop 4).take 2) : Int) - 1)
        (digitsToNat (((base.take 8).drop 6).take 2))) := by
  simp only [leading8Digits, Bool.and_eq_true, decide_eq_true_eq] at h
  obtain ⟨hlen, hdig⟩ := h
  have hall := List.all_eq_true.mp hdig
  have hlen8 : (base.take 8).length = 8 := by
    rw [List.length_take]
    omega
  have hy : jsParseInt ((base.take 8).take 4) =
      some (digitsToNat ((base.take 8).take 4)) := by
    apply jsParseInt_of_digits
    · intro hc
      have := congrArg List.length hc
      rw [List.length_take, hlen8] at this
      simp at this
    · exact List.all_eq_true.mpr fun x hx =>
        hall x (List.take_subset _ _ hx)
  have hm : jsParseInt (((base.take 8).drop 4).take 2) =
      some (digitsToNat (((base.take 8).drop 4).take 2)) := by
    apply jsParseInt_of_digits
    · intro hc
      have := congrArg List.length hc
      rw [List.length_take, List.length_drop, hlen8] at this
      simp at this
    · exact List.all_eq_true.mpr fun x hx =>
        hall x (List.drop_subset _ _ (List.take_subset _ _ hx))
  have hd2 : jsParseInt (((base.take 8).drop 6).take 2) =
      some (digitsToNat (((base.take 8).drop 6).take 2)) := by
    apply jsParseInt_of_digits
    · intro hc
      have := congrArg List.length hc
      rw [List.length_take, List.length_drop, hlen8] at this
      simp at this
    · exact List.all_eq_true.mpr fun x hx =>
        hall x (List.drop_subset _ _ (List.take_subset _ _ hx))
  simp only [jsParseBody, hy, hm, hd2]

/-- Dot-initial allowed extensions transfer from the hardcoded suffix
check to the spec-side pattern once the length bound is established. -/
theorem extSuffix_claim {s e : List Char}
    (hlead : leading8Digits s = true) (hdot : dotNorm e = e)
    (hcons : ∃ e2, e = '.' :: e2) (hends : endsWithCI s e = true) :
    (endsWithCI s (dotNorm e) &&
      decide (8 + (dotNorm e).length ≤ s.length)) = true := by
  obtain ⟨e2, rfl⟩ := hcons
  rw [hdot, Bool.and_eq_true]
  exact ⟨hends, by simpa using dot_suffix_length hlead hends⟩

/-- C1 (counterexample): for a root path that does not exist,
`searchForImages` does not signal any error — the promise resolves with
an empty result, because the glob library suppresses `ENOENT`.  The
`DirectoryNotFound` defence the claim requires of the Locator does not
exist in `searchForImages`; root validation lives in the interactive
prompt (src/prompts.ts lines 29-38), outside the Locator. -/
theorem claim_c1_counterexample :
    searchForImages ⟨false, false, []⟩ [(".jpg").data] = Except.ok [] := by
  decide

/-- C1 (amended): `searchForImages` performs no root validation of its
own.  A missing root yields `ok []` (no error); a root that is a file
surfaces the raw `ENOTDIR` rejection of the glob call (not a structured
`DirectoryNotFound`); an existing directory root with zero matching
files yields an empty result, not an error. -/
theorem claim_c1_amended :
    (∀ (exts : List (List Char)) (entries : List FileEnt) (b : Bool),
      searchForImages ⟨false, b, entries⟩ exts = Except.ok []) ∧
    (∀ (exts : List (List Char)) (entries : List FileEnt),
      searchForImages ⟨true, false, entries⟩ exts =
        Except.error (("ENOTDIR: not a directory").data)) ∧
    (∀ (fs : FileSystem) (exts : List (List Char)),
      fs.rootExists = true → fs.rootIsDir = true →
      matchedList fs exts = [] → searchForImages fs exts = Except.ok []) := by
  refine ⟨fun exts entries b => rfl, fun exts entries => rfl,
    fun fs exts hr hd hm => ?_⟩
  rw [searchForImages_ok exts hr hd, hm]
  rfl

/-- C1 (witness): an existing directory whose only file fails the
filename pattern gives an empty `ok` result. -/
theorem claim_c1_witness :
    searchForImages ⟨true, true, [⟨("/r").data, ("notadate.jpg").data⟩]⟩
      [(".jpg").data] = Except.ok [] :=
  claim_c1_amended.2.2 _ _ rfl rfl (by decide)

/-- C2 (counterexample): with allowed extensions `["eg"]` the glob
matches `20210101.jpeg` and the hardcoded regex accepts it, so the
result contains a path whose basename does not match the
spec's extension-parameterised pattern `^[0-9]{8}.*\.(eg)$` — the
source regex is fixed to `(jpg|jpeg|png)` rather than built from the
allowed extensions. -/
theorem claim_c2_counterexample :
    searchForImages ⟨true, true, [⟨("/r").data, ("20210101.jpeg").data⟩]⟩
        [("eg").data] =
      Except.ok [⟨("/r").data, ("20210101.jpeg").data⟩] ∧
    claimPattern [("eg").data] (("20210101.jpeg").data) = false := by
  exact ⟨by decide, by decide⟩

/-- C2 (amended): when every allowed extension is one of the
interaction layer's offered choices ".jpg", ".jpeg", ".png", every
path in a successful result of `searchForImages` has a basename
matching the spec pattern for those extensions (8 leading digits, any
characters, a dot and an allowed extension, case-insensitively); a
file whose basename does not match is thereby excluded, without the
search signalling any error. -/
theorem claim_c2_amended (fs : FileSystem) (exts : List (List Char))
    (r : List FileEnt) (f : FileEnt)
    (hsub : ∀ e ∈ exts, e ∈ [(".jpg").data, (".jpeg").data, (".png").data])
    (hok : searchForImages fs exts = Except.ok r) (hf : f ∈ r) :
    claimPattern exts f.base = true := by
  cases hre : fs.rootExists with
  | false =>
    simp [searchForImages, fgGlob, hre, matchedOf, firstOccur] at hok
    subst hok
    simp at hf
  | true =>
    cases hrd : fs.rootIsDir with
    | false => simp [searchForImages, fgGlob, hre, hrd] at hok
    | true =>
      rw [searchForImages_ok exts hre hrd] at hok
      have hr2 : r = firstOccur lowKey (matchedList fs exts) [] := by
        cases hok
        rfl
      rw [hr2] at hf
      have hmem := firstOccur_subset _ _ _ hf
      simp only [matchedList, matchedOf] at hmem
      obtain ⟨hglob, hhard⟩ := List.mem_filter.mp hmem
      simp only [globList] at hglob
      obtain ⟨_, hany⟩ := List.mem_filter.mp hglob
      obtain ⟨e, hemem, hacc⟩ := List.any_eq_true.mp hany
      have hends : endsWithCI f.base e = true := by
        simp only [fgAccept, Bool.and_eq_true] at hacc
        exact hacc.2
      have hlead : leading8Digits f.base = true := by
        simp only [hardRegex, Bool.and_eq_true] at hhard
        exact hhard.1
      simp only [claimPattern, Bool.and_eq_true]
      refine ⟨hlead, List.any_eq_true.mpr ⟨e, hemem, ?_⟩⟩
      have hse := hsub e hemem
      simp only [List.mem_cons, List.not_mem_nil, or_false] at hse
      rcases hse with h | h | h
      · subst h
        exact extSuffix_claim hlead (by decide) ⟨("jpg").data, rfl⟩ hends
      · subst h
        exact extSuffix_claim hlead (by decide) ⟨("jpeg").data, rfl⟩ hends
      · subst h
        exact extSuffix_claim hlead (by decide) ⟨("png").data, rfl⟩ hends

/-- C2 (witness): a conforming file under the allowed extension
".jpg" ends up in the result and matches the spec pattern. -/
theorem claim_c2_witness :
    claimPattern [(".jpg").data] (("20210101_pic.JPG").data) = true :=
  claim_c2_amended
    ⟨true, true, [⟨("/r").data, ("20210101_pic.JPG").data⟩]⟩
    [(".jpg").data]
    [⟨("/r").data, ("20210101_pic.JPG").data⟩]
    ⟨("/r").data, ("20210101_pic.JPG").data⟩
    (by decide) (by decide) (by decide)

/-- C3: the search result keeps exactly the first occurrence of each
case-insensitive basename: its key multiset is duplicate-free, for
every key the retained entries are the first matched file with that
key, and the reported duplicates are exactly the later matched files
with that key, in order. -/
theorem claim_c3_dedup (fs : FileSystem) (exts : List (List Char))
    (k : List Char) (hr : fs.rootExists = true) (hd : fs.rootIsDir = true) :
    searchForImages fs exts =
      Except.ok (firstOccur lowKey (matchedList fs exts) []) ∧
    ((firstOccur lowKey (matchedList fs exts) []).map lowKey).Nodup ∧
    (firstOccur lowKey (matchedList fs exts) []).filter
        (fun f => decide (lowKey f = k)) =
      ((matchedList fs exts).filter (fun f => decide (lowKey f = k))).take 1 ∧
    (duplicatesOf fs exts).filter (fun f => decide (lowKey f = k)) =
      ((matchedList fs exts).filter (fun f => decide (lowKey f = k))).drop 1 := by
  refine ⟨searchForImages_ok exts hr hd,
    (firstOccur_keys_fresh _ _).2,
    (firstOccur_filter k _ []).2 (by simp), ?_⟩
  rw [duplicatesOf_eq exts hr hd]
  exact (dupOccur_filter k _ []).2 (by simp)

/-- C3 (witness): of two files named `20210101.jpg`/`20210101.JPG` in
different directories, the first enumerated survives and the second is
skipped. -/
theorem claim_c3_witness :
    searchForImages
        ⟨true, true,
          [⟨("/r/a").data, ("20210101.jpg").data⟩,
            ⟨("/r/b").data, ("20210101.JPG").data⟩,
            ⟨("/r").data, ("20210102.jpg").data⟩]⟩ [(".jpg").data] =
      Except.ok
        [⟨("/r/a").data, ("20210101.jpg").data⟩,
          ⟨("/r").data, ("20210102.jpg").data⟩] := by
  have h := (claim_c3_dedup
    ⟨true, true,
      [⟨("/r/a").data, ("20210101.jpg").data⟩,
        ⟨("/r/b").data, ("20210101.JPG").data⟩,
        ⟨("/r").data, ("20210102.jpg").data⟩]⟩ [(".jpg").data]
    (("20210101.jpg").data) rfl rfl).1
  rw [h]
  decide

/-- C4: the file sequence produced by `parseDates` is a permutation of
the input, non-decreasing in the parsed date at every adjacent pair,
and stable: for each date value, the files carrying it appear in their
original relative order (stated for inputs that parse to valid dates;
the JS sort over NaN keys is implementation-defined). -/
theorem claim_c4_sorted (files : List FileEnt) (pd : ParsedData)
    (_hvalid : ∀ f ∈ files, jsParseBody f.base ≠ JSDate.invalid)
    (hpd : parseDates files = some pd) :
    pd.sortedFiles.Perm files ∧
    (∀ i, ∀ h : i + 1 < pd.sortedFiles.length,
      parsedMs (pd.sortedFiles.get ⟨i, by omega⟩) ≤
        parsedMs (pd.sortedFiles.get ⟨i + 1, h⟩)) ∧
    (∀ k : Int, pd.sortedFiles.filter (fun f => decide (parsedMs f = k)) =
      files.filter (fun f => decide (parsedMs f = k))) := by
  have hsf : pd.sortedFiles = sortByKey (sortKey tryParseImpl) files :=
    parseDatesWith_sortedFiles hpd
  refine ⟨hsf ▸ sortByKey_perm _ files, ?_, ?_⟩
  · intro i h
    have hp := sortByKey_pairwise (sortKey tryParseImpl) files
    rw [← hsf] at hp
    have := List.pairwise_iff_get.mp hp ⟨i, by omega⟩ ⟨i + 1, h⟩
      (by simp)
    exact this
  · intro k
    rw [hsf]
    exact sortByKey_filter (sortKey tryParseImpl) k files

/-- C4 (witness): two files given in reverse date order come back
date-sorted, as a permutation of the input. -/
theorem claim_c4_witness :
    (([⟨("/r").data, ("20210101.jpg").data⟩,
      ⟨("/r").data, ("20210102.jpg").data⟩] : List FileEnt)).Perm
      [⟨("/r").data, ("20210102.jpg").data⟩,
        ⟨("/r").data, ("20210101.jpg").data⟩] :=
  (claim_c4_sorted
    [⟨("/r").data, ("20210102.jpg").data⟩,
      ⟨("/r").data, ("20210101.jpg").data⟩]
    ⟨[⟨("/r").data, ("20210101.jpg").data⟩,
        ⟨("/r").data, ("20210102.jpg").data⟩],
      JSDate.valid (jsDateMs 2021 0 1), JSDate.valid (jsDateMs 2021 0 2)⟩
    (by decide) (by decide)).1

/-- C5: if the try-block of the per-file date parse raises (modelled by
the parse computation returning `none`), that file is assigned the
epoch sentinel `new Date(0)` and the batch is still fully processed:
the parse step still succeeds, every other file keeps its own parsed
date, and the output is a permutation of the input.  (In the shipped
parser the try-block never raises; the handler is defensive.) -/
theorem claim_c5_parse_fallback (tp : List Char → Option JSDate)
    (files : List FileEnt) (f : FileEnt) (hf : f ∈ files)
    (hfail : tp f.base = none) :
    effDate tp f = JSDate.valid 0 ∧
    (parseDatesWith tp files).isSome = true ∧
    (∀ g dv, tp g.base = some dv → effDate tp g = dv) ∧
    (∀ pd, parseDatesWith tp files = some pd → pd.sortedFiles.Perm files) := by
  refine ⟨by simp [effDate, hfail], ?_, fun g dv h => by simp [effDate, h],
    fun pd hpd => ?_⟩
  · exact parseDatesWith_isSome tp (List.ne_nil_of_mem hf)
  · rw [parseDatesWith_sortedFiles hpd]
    exact sortByKey_perm _ _

/-- C5 (witness): a parse computation that raises on the single input
file still produces a result, with the epoch date assigned. -/
theorem claim_c5_witness :
    effDate (fun _ => none) ⟨("/r").data, ("x.jpg").data⟩ = JSDate.valid 0 ∧
    (parseDatesWith (fun _ => none)
      [⟨("/r").data, ("x.jpg").data⟩]).isSome = true ∧
    (∀ g dv, (fun _ => (none : Option JSDate)) g.base = some dv →
      effDate (fun _ => none) g = dv) ∧
    (∀ pd, parseDatesWith (fun _ => none)
        [⟨("/r").data, ("x.jpg").data⟩] = some pd →
      pd.sortedFiles.Perm [⟨("/r").data, ("x.jpg").data⟩]) :=
  claim_c5_parse_fallback (fun _ => none) _ _ (by simp) rfl

/-- C6: `dayDifference` is the ceiling of the millisecond difference
over one day's milliseconds; equal dates give 0, and 2021-01-01 to
2021-01-10 gives 9. -/
theorem claim_c6_day_difference :
    (∀ d1 d2 : JSDate, dayDifference d1 d2 =
      ⌈((jsGetTime d2 - jsGetTime d1 : Int) : ℚ) / 86400000⌉) ∧
    (∀ d : JSDate, dayDifference d d = 0) ∧
    dayDifference (JSDate.valid (jsDateMs 2021 0 1))
      (JSDate.valid (jsDateMs 2021 0 10)) = 9 := by
  refine ⟨fun d1 d2 => neg_ediv_eq_ceil _, fun d => ?_, by decide⟩
  unfold dayDifference
  rw [sub_self]
  decide

/-- C7: `createMontage` builds exactly one invocation of `montage`
whose arguments are the input files in order, then
`-tile <N>x -geometry <res>+0+0 -background white +frame +shadow
+label` and the output file last. -/
theorem claim_c7_montage_args (files : List (List Char)) (n : Int)
    (res out : List Char) :
    createMontage ⟨files, n, res, out⟩ =
      ⟨("montage").data,
        files ++ [("-tile").data, (toString n).data ++ ['x'],
          ("-geometry").data, res ++ ("+0+0").data,
          ("-background").data, ("white").data, ("+frame").data,
          ("+shadow").data, ("+label").data, out]⟩ := rfl

/-- C8: `runCommand` resolves exactly when the spawned process exits
with code 0; a non-zero exit rejects with a message naming the command
and the exit code, and a spawn failure rejects with the spawn error. -/
theorem claim_c8_exit_code :
    (∀ (cmd : List Char) (args : List (List Char)) (oc : ProcOutcome),
      runCommand cmd args oc = Except.ok () ↔ oc = ProcOutcome.exited 0) ∧
    (∀ (cmd : List Char) (args : List (List Char)) (c : Int), ¬(c = 0) →
      runCommand cmd args (ProcOutcome.exited c) =
        Except.error (cmd ++ (" exited with code ").data ++ (toString c).data)) ∧
    (∀ (cmd : List Char) (args : List (List Char)) (e : List Char),
      runCommand cmd args (ProcOutcome.spawnFail e) = Except.error e) := by
  refine ⟨fun cmd args oc => ?_, fun cmd args c hc => by simp [runCommand, hc],
    fun cmd args e => rfl⟩
  cases oc with
  | spawnFail e => simp [runCommand]
  | exited c =>
    by_cases hc : c = 0
    · subst hc
      simp [runCommand]
    · simp [runCommand, hc]

/-- C8 (witness): exit code 2 — the spec's example — yields the error
message naming the command and the code. -/
theorem claim_c8_witness :
    runCommand (("montage").data) [] (ProcOutcome.exited 2) =
      Except.error (("montage exited with code 2").data) := by
  have h := claim_c8_exit_code.2.1 (("montage").data) [] 2 (by decide)
  rw [h]
  decide

/-- C9: with zero found images the pipeline tail returns the
`NoImagesFound` notice — a normal return, not an error — and never
produces a montage invocation (so neither date parsing output nor the
composition step is reached). -/
theorem claim_c9_no_images (inp : CliInputs) :
    runCliAfterSearch [] inp =
      CliOutcome.noImages
        (("No images found matching the given extensions.").data) ∧
    (∀ inv, runCliAfterSearch [] inp ≠ CliOutcome.montageRun inv) ∧
    runCliAfterSearch [] inp ≠ CliOutcome.crashed := by
  have hbase : runCliAfterSearch [] inp =
      CliOutcome.noImages
        (("No images found matching the given extensions.").data) := rfl
  refine ⟨hbase, fun inv => ?_, ?_⟩ <;> rw [hbase] <;> simp

/-- C10: a basename with 8 leading digits always parses (never the
invalid date, never the catch/epoch fallback — the assigned date is
always the try-block value), out-of-range month fields roll over
arithmetically into adjacent years (stated for 3-digit-plus years,
avoiding the JS 1900-offset for years 0-99), and concretely month 13
of 2021 equals January 2022 and day 32 of January equals February 1. -/
theorem claim_c10_date_rollover :
    (∀ base, leading8Digits base = true → jsParseBody base ≠ JSDate.invalid) ∧
    (∀ f : FileEnt, effDate tryParseImpl f = jsParseBody f.base) ∧
    (∀ y m d : Int, 100 ≤ y → 12 ≤ m → m ≤ 23 →
      jsDateDays y m d = jsDateDays (y + 1) (m - 12) d) ∧
    jsParseBody (("20211301a.jpg").data) = jsParseBody (("20220101a.jpg").data) ∧
    jsParseBody (("20210132a.jpg").data) = jsParseBody (("20210201a.jpg").data) ∧
    jsParseBody (("20211301a.jpg").data) ≠ JSDate.valid 0 := by
  refine ⟨?_, fun f => rfl, ?_, by decide, by decide, by decide⟩
  · intro base h
    rw [jsParseBody_of_digits h]
    simp
  · intro y m d hy hm1 hm2
    simp only [jsDateDays]
    rw [if_neg (by omega), if_neg (by omega)]
    have hq : Int.ediv m 12 = 1 ∧ Int.emod m 12 = m - 12 ∧
        Int.ediv (m - 12) 12 = 0 ∧ Int.emod (m - 12) 12 = m - 12 := by
      interval_cases m <;> exact ⟨by decide, by decide, by decide, by decide⟩
    have h1 : y + Int.ediv m 12 = (y + 1) + Int.ediv (m - 12) 12 := by
      rw [hq.1, hq.2.2.1]
      ring
    have h2 : Int.emod m 12 = Int.emod (m - 12) 12 := by
      rw [hq.2.1, hq.2.2.2]
    rw [h1, h2]

/-- C10 (witness): the month-13 filename parses to a valid date and
its day number equals that of 2022-01-01. -/
theorem claim_c10_witness :
    jsParseBody (("20211301a.jpg").data) ≠ JSDate.invalid ∧
    jsDateDays 2021 12 1 = jsDateDays 2022 0 1 :=
  ⟨claim_c10_date_rollover.1 _ (by decide),
    claim_c10_date_rollover.2.2.1 2021 12 1 (by decide) (by decide) (by decide)⟩

end PhotoGrid
